import Mathlib

/-!
# typepress/i18n: translator registry and language negotiation

A shallow embedding of `src/i18n.go`.

* Go maps are association lists (`GoMap`); `m[k]` on a missing key gives the zero value.
* The process-wide registry `mm` is passed explicitly as a state.
* A `*trans` that may be nil is an `Option trans`.
* A nil `Translator` interface value and a nil inner map are `none`.
* Functions of the Go standard library (`fmt`, `strings.ToLower`, `mime.ParseMediaType`)
  are not part of the repository: the embedding takes them as parameters (`Fmt`, `Lib`),
  and the theorems hold for every value of them.  `strings.Split` on a comma is defined
  on the characters.  Instances on ASCII text serve to evaluate the examples.
* A run-time panic (index out of range, write to a nil map, read through a nil pointer,
  failed type assertion) is the result `none`.
* `Sprintf` is given a second time with its steps in order (reads of the registry,
  operations on the lock, calls of translators), and proved to return the same string.
* The handler of `Translate` runs on the store `martini.Context`, a parameter
  (`Injector`) whose `Get` may fail, and on a heap of `trans` objects.
-/

set_option autoImplicit false

namespace I18n

/-! ## Go values -/

/-- Go `len(s)` of a string: its length in bytes. -/
def len (s : String) : Nat := s.utf8ByteSize

/-- A Go `map[string]β`, kept as an association list; the first pair of a key is its entry. -/
abbrev GoMap (β : Type) : Type := List (String × β)

namespace GoMap

variable {β : Type}

/-- The entry of key `k`, if the map has one. -/
def get : GoMap β → String → Option β
  | [], _ => none
  | (k0, v0) :: rest, k => if k0 = k then some v0 else get rest k

/-- Go `m[k]`: the entry of `k`, or the zero value `zero` of the element type. -/
def index (m : GoMap β) (k : String) (zero : β) : β :=
  match get m k with
  | some v => v
  | none => zero

/-- Go `m[k] = v`: replaces the entry of `k`, or adds one. -/
def set : GoMap β → String → β → GoMap β
  | [], k, v => [(k, v)]
  | (k0, v0) :: rest, k, v => if k0 = k then (k, v) :: rest else (k0, v0) :: set rest k v

/-- Go `len(m)`: the number of keys. -/
def len (m : GoMap β) : Nat := (m.map Prod.fst).dedup.length

end GoMap

/-! ## The translator capability and the registry (lines 16-49) -/

/-- The `Translator` interface: two formatting methods over argument values of type `V`. -/
structure Translator (V : Type) where
  Sprint : List V → String
  Sprintf : String → List V → String

/-- The type of the inner maps: `map[string]Translator`; `none` is a nil interface value. -/
abbrev Dests (V : Type) : Type := GoMap (Option (Translator V))

/-- The type of `mm`: `map[string]map[string]Translator`; `none` is a nil inner map. -/
abbrev Registry (V : Type) : Type := GoMap (Option (Dests V))

/-- The constant `NameOfCookieToUseLanguage`. -/
def NameOfCookieToUseLanguage : String := "lang"

/-- The function `Register` (lines 35-44), on the registry state `mm`.
The result is `none` when the assignment `m[destination] = trs` hits a nil map. -/
def Register {V : Type} (mm : Registry V) (source destination : String)
    (trs : Option (Translator V)) : Option (Registry V) :=
  let m := GoMap.index mm source none
  let mm1 := if m.isNone then GoMap.set mm source (some []) else mm
  let m1 := if m.isNone then GoMap.index mm1 source none else m
  match m1 with
  | none => none
  | some inner => some (GoMap.set mm1 source (some (GoMap.set inner destination trs)))

/-! ## The negotiation context and formatting (lines 71-122) -/

/-- The package `fmt`, as far as the program calls it. -/
structure Fmt (V : Type) where
  Sprint : List V → String
  Sprintf : String → List V → String

/-- The struct `trans`. -/
structure trans where
  source : String
  acceptlang : List String
  deriving DecidableEq, Repr

/-- The method `(*trans).sprintf` (lines 117-122): the default formatting policy.
The receiver is not dereferenced. -/
def trans.sprintf {V : Type} (F : Fmt V) (_tr : Option trans) (format : String)
    (v : List V) : String :=
  if len format = 0 then F.Sprint v else F.Sprintf format v

/-- The loop of `(*trans).Sprintf` (lines 100-112) over the remaining tags:
`some s` when the loop returns `s`, `none` when it runs to its end. -/
def trans.Sprintf.loop {V : Type} (m : Dests V) (format : String) (v : List V) :
    List String → Option String
  | [] => none
  | ac :: rest =>
    match GoMap.index m ac none with
    | some t =>
      let s := if len format = 0 then t.Sprint v else t.Sprintf format v
      if len s ≠ 0 then some s else trans.Sprintf.loop m format v rest
    | none => trans.Sprintf.loop m format v rest

/-- The method `(*trans).Sprintf` (lines 86-115). -/
def trans.Sprintf {V : Type} (F : Fmt V) (mm : Registry V) (tr : Option trans)
    (format : String) (v : List V) : String :=
  match tr with
  | none => trans.sprintf F tr format v
  | some t =>
    if GoMap.len mm = 0 ∨ len t.source = 0 ∨ t.acceptlang.length = 0 then
      trans.sprintf F tr format v
    else
      match GoMap.index mm t.source none with
      | none => trans.sprintf F tr format v
      | some m =>
        match trans.Sprintf.loop m format v t.acceptlang with
        | some s => s
        | none => trans.sprintf F tr format v

/-- The method `(*trans).Sprint` (lines 82-84). -/
def trans.Sprint {V : Type} (F : Fmt V) (mm : Registry V) (tr : Option trans)
    (v : List V) : String :=
  trans.Sprintf F mm tr "" v

/-- The method `(*trans).Source` (lines 76-80). -/
def trans.Source (tr : Option trans) (source : String) : Option trans :=
  match tr with
  | some t => some { t with source := source }
  | none => none

/-! ## Preference-list derivation (lines 124-147) -/

/-- The entries of a character sequence between the occurrences of `sep`. -/
def splitChars (sep : Char) : List Char → List (List Char)
  | [] => [[]]
  | c :: cs =>
    if c = sep then [] :: splitChars sep cs
    else
      match splitChars sep cs with
      | [] => [[c]]
      | e :: es => (c :: e) :: es

/-- Go `strings.Split(s, sep)` for a separator of one character. -/
def strings.Split (s : String) (sep : Char) : List String :=
  (splitChars sep s.data).map String.mk

/-- The functions of the packages `strings` and `mime` that `sortAcceptLang` calls and
that depend on Unicode tables and on the MIME grammar of the Go release in use.
`ParseMediaType` gives `none` when Go returns a non-nil error. -/
structure Lib where
  ToLower : String → String
  ParseMediaType : String → Option (String × GoMap String)

/-- A request `*http.Request`, as far as the program reads it: the cookies it carries,
in order (name and value), and its header fields. -/
structure Request where
  cookies : List (String × String)
  Header : GoMap (List String)
  deriving DecidableEq, Repr

/-- Go `r.Cookie(name)`: the value of the first cookie of that name; `none` is a nil cookie. -/
def Request.Cookie (r : Request) (name : String) : Option String :=
  GoMap.get r.cookies name

/-- Go `r.Header.Get(key)`: the first value of the field, or the empty string. -/
def Request.HeaderGet (r : Request) (key : String) : String :=
  match GoMap.index r.Header key [] with
  | [] => ""
  | x :: _ => x

/-- The loop of `sortAcceptLang` (lines 137-145) over the entries `ss[i]`, `i ≥ 1`,
that remain, with the tags collected so far. -/
def sortAcceptLang.loop (L : Lib) : List String → List String → List String
  | [], langs => langs
  | e :: es, langs =>
    match L.ParseMediaType e with
    | none => langs
    | some (mediatype, params) =>
      if GoMap.index params "q" "" ≠ "0" then
        sortAcceptLang.loop L es (langs ++ [mediatype])
      else
        sortAcceptLang.loop L es langs

/-- The function `sortAcceptLang` (lines 124-147).
The result is `none` when the index `ss[0]` is out of range. -/
def sortAcceptLang (L : Lib) (r : Request) : Option (List String) :=
  let al :=
    match r.Cookie NameOfCookieToUseLanguage with
    | some value => value
    | none => ""
  let al := if al = "" then r.HeaderGet "Accept-Language" else al
  let ss := strings.Split al ','
  match ss with
  | [] => none
  | s0 :: rest => some (sortAcceptLang.loop L rest [L.ToLower s0])

/-! ## `Sprintf` step by step (lines 86-115)

The same method with what it does in order: its reads of the registry, its operations on
the lock `trwr` and its calls of translators.  A read through a nil `*trans` is the
result `none`. -/

/-- The steps of `Sprintf` that touch the registry, the lock or a translator. -/
inductive Event where
  /-- The read `len(mm)` of line 87. -/
  | lenRead
  /-- The call `trwr.RLock()` of line 91. -/
  | RLock
  /-- The read `mm[tr.source]` of line 94. -/
  | sourceRead (source : String)
  /-- The read `m[ac]` of line 101. -/
  | destRead (tag : String)
  /-- The call `t.Sprint(v...)` or `t.Sprintf(format, v...)` of lines 104 and 106, on the
  translator found under `tag`. -/
  | call (tag : String)
  /-- The call `trwr.RUnlock()` deferred on line 92: it runs when `Sprintf` returns. -/
  | RUnlock
  deriving DecidableEq, Repr

/-- The loop of lines 100-112 with its steps: the string the loop returns, if it returns
one, and the reads and calls made. -/
def trans.Sprintf.loopSteps {V : Type} (m : Dests V) (format : String) (v : List V) :
    List String → Option String × List Event
  | [] => (none, [])
  | ac :: rest =>
    match GoMap.index m ac none with
    | some t =>
      let s := if len format = 0 then t.Sprint v else t.Sprintf format v
      if len s ≠ 0 then (some s, [Event.destRead ac, Event.call ac])
      else
        ((trans.Sprintf.loopSteps m format v rest).1,
          Event.destRead ac :: Event.call ac :: (trans.Sprintf.loopSteps m format v rest).2)
    | none =>
      ((trans.Sprintf.loopSteps m format v rest).1,
        Event.destRead ac :: (trans.Sprintf.loopSteps m format v rest).2)

/-- The method `(*trans).Sprintf` (lines 86-115) with its steps.  The condition of line 87
is evaluated from left to right and stops at the first true operand; the deferred
`RUnlock` is the last step of every return after line 92. -/
def trans.Sprintf.steps {V : Type} (F : Fmt V) (mm : Registry V) (tr : Option trans)
    (format : String) (v : List V) : Option (String × List Event) :=
  if GoMap.len mm = 0 ∨ tr.isNone then
    some (trans.sprintf F tr format v, [Event.lenRead])
  else
    match tr with
    | none => none
    | some t =>
      if len t.source = 0 ∨ t.acceptlang.length = 0 then
        some (trans.sprintf F tr format v, [Event.lenRead])
      else
        match GoMap.index mm t.source none with
        | none =>
          some (trans.sprintf F tr format v,
            [Event.lenRead, Event.RLock, Event.sourceRead t.source, Event.RUnlock])
        | some m =>
          match (trans.Sprintf.loopSteps m format v t.acceptlang).1 with
          | some s =>
            some (s, [Event.lenRead, Event.RLock, Event.sourceRead t.source] ++
              (trans.Sprintf.loopSteps m format v t.acceptlang).2 ++ [Event.RUnlock])
          | none =>
            some (trans.sprintf F tr format v,
              [Event.lenRead, Event.RLock, Event.sourceRead t.source] ++
                (trans.Sprintf.loopSteps m format v t.acceptlang).2 ++ [Event.RUnlock])

/-- Whether the read lock is held at each translator call of a sequence of steps that
starts with the lock held (`true`) or not (`false`). -/
def lockAtCalls : Bool → List Event → List Bool
  | _, [] => []
  | _, Event.RLock :: es => lockAtCalls true es
  | _, Event.RUnlock :: es => lockAtCalls false es
  | held, Event.call _ :: es => held :: lockAtCalls held es
  | held, _ :: es => lockAtCalls held es

/-- Whether the read lock is held after a sequence of steps. -/
def lockAfter : Bool → List Event → Bool
  | held, [] => held
  | _, Event.RLock :: es => lockAfter true es
  | _, Event.RUnlock :: es => lockAfter false es
  | held, _ :: es => lockAfter held es

/-! ## The handler `Translate` (lines 51-69)

The handler works on the per-request store `martini.Context` and on the objects that its
pointers address.  The store is not part of the repository: the embedding takes it as a
parameter (`Injector`).  The objects of type `trans` are kept in a heap, a list in which
an address is a position. -/

/-- The dynamic types of the values that the handler can meet: `*trans`, or a type that
is another one. -/
inductive DynType where
  | ptrTrans
  | other (name : String)
  deriving DecidableEq, Repr

/-- A value of type `reflect.Type`; `none` is the nil `reflect.Type`. -/
abbrev ReflectType : Type := Option DynType

/-- A non-nil interface value: a `*trans`, which is the address of a `trans` or the nil
pointer (`none`), or a value of another type. -/
inductive Dyn where
  | transPtr (p : Option Nat)
  | other (name : String)
  deriving DecidableEq, Repr

/-- An interface value; `none` is the nil interface value. -/
abbrev Iface : Type := Option Dyn

/-- Go `reflect.TypeOf(i)`: the dynamic type of `i`, and the nil `reflect.Type` when `i`
is a nil interface value. -/
def reflect.TypeOf : Iface → ReflectType
  | none => none
  | some (Dyn.transPtr _) => some DynType.ptrTrans
  | some (Dyn.other name) => some (DynType.other name)

/-- The variable `typeTranslator` (line 51): `reflect.TypeOf(types.Translator(nil))`, where
`types.Translator(nil)` is a nil interface value. -/
def typeTranslator : ReflectType := reflect.TypeOf none

/-- The store `martini.Context`, as far as the handler calls it, over states `σ`.
`Get c t` is the outcome of `c.Get(t)`: `none` when the call does not return (a run-time
failure inside the store), `some none` when it returns a `reflect.Value` whose `IsValid()`
is false, and `some (some d)` when it returns a valid one whose `Interface()` is `d`.
`Map c val` is the state after `c.Map(val)`. -/
structure Injector (σ : Type) where
  Get : σ → ReflectType → Option (Option Dyn)
  Map : σ → Iface → σ

/-- Lines 55-66 of the handler: the pointer `tr` that line 67 maps, and the heap.
The result is `none` when `c.Get` of line 56 does not return, when a type assertion of
lines 58-59 fails, when `tr` addresses no object, or when `sortAcceptLang` fails. -/
def Translate.tr {σ : Type} (L : Lib) (I : Injector σ) (source : String) (r : Request)
    (c : σ) (heap : List trans) : Option (Nat × List trans) :=
  let found : Option (Option Nat) :=
    match I.Get c typeTranslator with
    | none => none
    | some none => some none
    | some (some (Dyn.transPtr p)) => some p
    | some (some (Dyn.other _)) => none
  match found with
  | none => none
  | some none =>
    match sortAcceptLang L r with
    | none => none
    | some langs => some (heap.length, heap ++ [{ source := source, acceptlang := langs }])
  | some (some p) =>
    match heap[p]? with
    | none => none
    | some t =>
      if t.acceptlang.length = 0 then
        match sortAcceptLang L r with
        | none => none
        | some langs => some (p, heap.set p { source := source, acceptlang := langs })
      else some (p, heap)

/-- The handler that `Translate(source)` returns (lines 54-68), on the state `c` of the
store and the heap. -/
def Translate {σ : Type} (L : Lib) (I : Injector σ) (source : String) (r : Request)
    (c : σ) (heap : List trans) : Option (σ × List trans) :=
  match Translate.tr L I source r c heap with
  | none => none
  | some (p, heap1) => some (I.Map c (some (Dyn.transPtr (some p))), heap1)

/-! ## Instances for evaluating the examples

The definitions of this section stand for the Go standard library on the inputs of the
examples: argument values that are strings, templates whose verbs are `%s`, `%v` and `%%`,
ASCII tags, and entries of the form `tag` or `tag;name=value` with token values. -/

/-- ASCII lowercasing, `strings.ToLower` on ASCII text. -/
def asciiToLower (s : String) : String := String.mk (s.data.map Char.toLower)

/-- White space of `unicode.IsSpace` within ASCII. -/
def isSpace (c : Char) : Bool :=
  c = ' ' || c = '\t' || c = '\n' || c = '\r' || c.val = 11 || c.val = 12

/-- The token characters of package `mime`: visible ASCII other than the tspecials. -/
def isTokenChar (c : Char) : Bool :=
  decide (32 < c.val.toNat) && decide (c.val.toNat < 127) &&
    !("()<>@,;:\\\"/[]?=".data.contains c)

/-- Drops leading white space. -/
def trimLeft (cs : List Char) : List Char := cs.dropWhile isSpace

/-- Drops white space on both sides. -/
def trimSpace (cs : List Char) : List Char :=
  ((cs.dropWhile isSpace).reverse.dropWhile isSpace).reverse

/-- The check of a media type: `token` or `token/token`. -/
def checkMediaType (cs : List Char) : Bool :=
  let typ := cs.takeWhile isTokenChar
  let rest := cs.dropWhile isTokenChar
  if typ.isEmpty then false
  else
    match rest with
    | [] => true
    | '/' :: sub => !sub.isEmpty && sub.all isTokenChar
    | _ => false

/-- The parameters `;name=value` of an entry, with token values and distinct names;
a single trailing semicolon is accepted.  The first argument bounds the number of rounds. -/
def parseParams : Nat → List Char → GoMap String → Option (GoMap String)
  | 0, _, _ => none
  | fuel + 1, v, params =>
    match trimLeft v with
    | [] => some params
    | ';' :: r1 =>
      let r2 := trimLeft r1
      let key := r2.takeWhile isTokenChar
      match trimLeft (r2.dropWhile isTokenChar) with
      | '=' :: r3 =>
        let r4 := trimLeft r3
        let value := r4.takeWhile isTokenChar
        if key.isEmpty || value.isEmpty then none
        else
          let name := asciiToLower (String.mk key)
          match GoMap.get params name with
          | some _ => none
          | none => parseParams fuel (r4.dropWhile isTokenChar) (GoMap.set params name (String.mk value))
      | r3 => if key.isEmpty && r3.isEmpty then some params else none
    | _ => none

/-- The parser `mime.ParseMediaType` on entries of the form `tag` or `tag;name=value`. -/
def parseMediaType (v : String) : Option (String × GoMap String) :=
  let base := v.data.takeWhile (fun c => c ≠ ';')
  let mediatype := trimSpace (base.map Char.toLower)
  if checkMediaType mediatype then
    match parseParams (v.data.length + 1) (v.data.dropWhile (fun c => c ≠ ';')) [] with
    | some params => some (String.mk mediatype, params)
    | none => none
  else none

/-- The library instance of the examples. -/
def asciiLib : Lib where
  ToLower := asciiToLower
  ParseMediaType := parseMediaType

/-- The text of `fmt.Sprintf` for string operands and the verbs `%s`, `%v`, `%%`. -/
def sprintfChars : List Char → List String → List Char
  | [], [] => []
  | [], a :: rest =>
    "%!(EXTRA ".data ++
      (String.intercalate ", " ((a :: rest).map (fun x => "string=" ++ x))).data ++ [')']
  | '%' :: '%' :: cs, args => '%' :: sprintfChars cs args
  | '%' :: 's' :: cs, a :: rest => a.data ++ sprintfChars cs rest
  | '%' :: 'v' :: cs, a :: rest => a.data ++ sprintfChars cs rest
  | '%' :: 's' :: cs, [] => "%!s(MISSING)".data ++ sprintfChars cs []
  | '%' :: 'v' :: cs, [] => "%!v(MISSING)".data ++ sprintfChars cs []
  | c :: cs, args => c :: sprintfChars cs args

/-- The package `fmt` on string operands: `Sprint` concatenates them. -/
def stringFmt : Fmt String where
  Sprint := fun v => String.join v
  Sprintf := fun format v => String.mk (sprintfChars format.data v)

/-- A translator that knows one message. -/
def zhTranslator : Translator String where
  Sprint := fun _ => ""
  Sprintf := fun format v =>
    if format = "hi %s" then String.mk ("你好 ".data ++ (String.join v).data) else ""

/-- The registry after `Register("en", "zh-cn", zhTranslator)` on the empty registry. -/
def exampleRegistry : Registry String := [("en", some [("zh-cn", some zhTranslator)])]

/-- A registry whose source `en` has a translator under the empty destination tag. -/
def emptyTagRegistry : Registry String := [("en", some [("", some zhTranslator)])]

/-- The store of package `inject`, which `martini.Context` embeds, as a list of values
filed under types, the first pair of a type being its entry.  `Map` files a value under
its dynamic type `reflect.TypeOf(val)`.  `Get` returns the valid value filed under the
type; when there is none it asks the type for its kind, which for the nil type is a
run-time failure (a method call on a nil `reflect.Type`), and for the other types of
`DynType`, none of them an interface type, leads to the answer that nothing is found. -/
def typeStore : Injector (List (ReflectType × Iface)) where
  Get := fun c t =>
    match c.lookup t with
    | some (some d) => some (some d)
    | _ =>
      match t with
      | none => none
      | some _ => some none
  Map := fun c val => (reflect.TypeOf val, val) :: c

/-- A store with one place, which pays no regard to types: `Get` gives the value mapped
last.  It is the store that the handler is written for, and not the one of `martini`. -/
def slotStore : Injector Iface where
  Get := fun c _ => some c
  Map := fun _ val => val

/-! ## Notions used in the statements -/

/-- The translator registered for the pair `(source, destination)`: what
`mm[source][destination]` holds, `none` when there is none. -/
def lookup {V : Type} (mm : Registry V) (source destination : String) :
    Option (Translator V) :=
  match GoMap.index mm source none with
  | none => none
  | some m => GoMap.index m destination none

/-- The output of a translator for a call: its `Sprint` when the template is empty,
its `Sprintf` otherwise. -/
def Translator.output {V : Type} (T : Translator V) (format : String) (v : List V) : String :=
  if format = "" then T.Sprint v else T.Sprintf format v

/-- The default formatting policy: `fmt.Sprint` when the template is empty,
`fmt.Sprintf` otherwise. -/
def defaultPolicy {V : Type} (F : Fmt V) (format : String) (v : List V) : String :=
  if format = "" then F.Sprint v else F.Sprintf format v

/-- The raw preference value of a request: the value of the cookie `lang` when the cookie
is present and not empty, the value of the header `Accept-Language` otherwise. -/
def rawPreference (r : Request) : String :=
  match r.Cookie "lang" with
  | some value => if value = "" then r.HeaderGet "Accept-Language" else value
  | none => r.HeaderGet "Accept-Language"

/-- The request without cookies whose header `Accept-Language` is `al`. -/
def headerRequest (al : String) : Request :=
  { cookies := [], Header := [("Accept-Language", [al])] }

/-- The tag an entry after the first contributes: the parsed tag, unless the entry does
not parse or its parameter `q` is the string `0`. -/
def keptTag (L : Lib) (e : String) : Option String :=
  match L.ParseMediaType e with
  | none => none
  | some (mediatype, params) => if GoMap.index params "q" "" = "0" then none else some mediatype

/-- The entries joined by commas. -/
def joinComma (ss : List String) : String :=
  String.mk (List.intercalate [','] (ss.map String.data))

/-! ## Lemmas on Go values -/

theorem len_eq_zero_iff (s : String) : len s = 0 ↔ s = "" := by
  rcases s with ⟨cs⟩
  cases cs with
  | nil => simp [len, String.utf8ByteSize, String.utf8ByteSize.go]
  | cons c cs =>
    have hc := Char.utf8Size_pos c
    simp only [len, String.utf8ByteSize, String.utf8ByteSize.go]
    constructor
    · intro h; omega
    · intro h
      have h2 := congrArg String.data h
      simp at h2

namespace GoMap

variable {β : Type}

theorem len_zero_iff_nil (m : GoMap β) : len m = 0 ↔ m = [] := by
  simp [len, List.length_eq_zero]

theorem get_set_same (m : GoMap β) (k : String) (v : β) : get (set m k v) k = some v := by
  induction m with
  | nil => simp [set, get]
  | cons p rest ih =>
    rcases p with ⟨k0, v0⟩
    by_cases h : k0 = k
    · simp [set, get, h]
    · simp [set, get, h, ih]

theorem get_set_other (m : GoMap β) (k k1 : String) (v : β) (h : k1 ≠ k) :
    get (set m k v) k1 = get m k1 := by
  induction m with
  | nil => simp [set, get, Ne.symm h]
  | cons p rest ih =>
    rcases p with ⟨k0, v0⟩
    by_cases h0 : k0 = k
    · subst h0
      simp [set, get, Ne.symm h]
    · by_cases h1 : k0 = k1
      · subst h1
        simp [set, get, h0]
      · simp [set, get, h0, h1, ih]

theorem set_set_same (m : GoMap β) (k : String) (a b : β) :
    set (set m k a) k b = set m k b := by
  induction m with
  | nil => simp [set]
  | cons p rest ih =>
    rcases p with ⟨k0, v0⟩
    by_cases h : k0 = k
    · simp [set, h]
    · simp [set, h, ih]

theorem index_set_same (m : GoMap β) (k : String) (v zero : β) :
    index (set m k v) k zero = v := by
  simp [index, get_set_same]

theorem index_set_other (m : GoMap β) (k k1 : String) (v zero : β) (h : k1 ≠ k) :
    index (set m k v) k1 zero = index m k1 zero := by
  simp [index, get_set_other m k k1 v h]

end GoMap

/-! ## Lemmas on `Sprintf` -/

theorem sprintf_eq_defaultPolicy {V : Type} (F : Fmt V) (tr : Option trans) (format : String)
    (v : List V) : trans.sprintf F tr format v = defaultPolicy F format v := by
  unfold trans.sprintf defaultPolicy
  by_cases h : format = ""
  · subst h
    simp [(len_eq_zero_iff "").2 rfl]
  · have h0 : ¬ len format = 0 := fun hl => h ((len_eq_zero_iff format).1 hl)
    simp [h, h0]

theorem loop_step_output {V : Type} (T : Translator V) (format : String) (v : List V) :
    (if len format = 0 then T.Sprint v else T.Sprintf format v) = T.output format v := by
  unfold Translator.output
  by_cases h : format = ""
  · subst h
    simp [(len_eq_zero_iff "").2 rfl]
  · have h0 : ¬ len format = 0 := fun hl => h ((len_eq_zero_iff format).1 hl)
    simp [h, h0]

theorem loop_cons_some {V : Type} (m : Dests V) (format : String) (v : List V) (ac : String)
    (rest : List String) (T : Translator V) (h : GoMap.index m ac none = some T) :
    trans.Sprintf.loop m format v (ac :: rest) =
      if T.output format v = "" then trans.Sprintf.loop m format v rest
      else some (T.output format v) := by
  rw [trans.Sprintf.loop, h]
  simp only [loop_step_output]
  by_cases ho : T.output format v = ""
  · simp [ho, (len_eq_zero_iff "").2 rfl]
  · have h0 : ¬ len (T.output format v) = 0 := fun hl => ho ((len_eq_zero_iff _).1 hl)
    simp [ho, h0]

theorem loop_cons_none {V : Type} (m : Dests V) (format : String) (v : List V) (ac : String)
    (rest : List String) (h : GoMap.index m ac none = none) :
    trans.Sprintf.loop m format v (ac :: rest) = trans.Sprintf.loop m format v rest := by
  rw [trans.Sprintf.loop, h]

/-- The loop returns the output of the first tag whose translator gives non-empty output. -/
theorem loop_first_match {V : Type} (m : Dests V) (format : String) (v : List V) :
    ∀ (tags : List String) (i : Nat) (tag : String) (T : Translator V),
      tags[i]? = some tag →
      GoMap.index m tag none = some T →
      T.output format v ≠ "" →
      (∀ (j : Nat) (tag1 : String) (T1 : Translator V), j < i → tags[j]? = some tag1 →
        GoMap.index m tag1 none = some T1 → T1.output format v = "") →
      trans.Sprintf.loop m format v tags = some (T.output format v) := by
  intro tags
  induction tags with
  | nil => intro i tag T hi; simp at hi
  | cons ac rest ih =>
    intro i tag T hi hT hne hleast
    cases i with
    | zero =>
      simp at hi
      subst hi
      rw [loop_cons_some m format v ac rest T hT]
      simp [hne]
    | succ k =>
      have hrec : trans.Sprintf.loop m format v rest = some (T.output format v) := by
        apply ih k tag T (by simpa using hi) hT hne
        intro j tag1 T1 hj h1 h2
        exact hleast (j + 1) tag1 T1 (by omega) (by simpa using h1) h2
      cases hac : GoMap.index m ac none with
      | none => rw [loop_cons_none m format v ac rest hac, hrec]
      | some T0 =>
        have h0 : T0.output format v = "" := hleast 0 ac T0 (by omega) (by simp) hac
        rw [loop_cons_some m format v ac rest T0 hac, h0]
        simpa using hrec

/-- The loop runs to its end when no tag has a translator with non-empty output. -/
theorem loop_no_match {V : Type} (m : Dests V) (format : String) (v : List V) :
    ∀ (tags : List String),
      (∀ (tag : String) (T : Translator V), tag ∈ tags → GoMap.index m tag none = some T →
        T.output format v = "") →
      trans.Sprintf.loop m format v tags = none := by
  intro tags
  induction tags with
  | nil => intro _; rfl
  | cons ac rest ih =>
    intro h
    have hrec : trans.Sprintf.loop m format v rest = none :=
      ih (fun tag T hmem hT => h tag T (List.mem_cons_of_mem _ hmem) hT)
    cases hac : GoMap.index m ac none with
    | none => rw [loop_cons_none m format v ac rest hac, hrec]
    | some T0 =>
      have h0 : T0.output format v = "" := h ac T0 (List.mem_cons_self _ _) hac
      rw [loop_cons_some m format v ac rest T0 hac, h0]
      simpa using hrec

/-- The form of `Sprintf` once the guard of line 87 is passed and the entry set is found. -/
theorem Sprintf_of_entry {V : Type} (F : Fmt V) (mm : Registry V) (t : trans) (format : String)
    (v : List V) (m : Dests V) (hs : t.source ≠ "") (ha : t.acceptlang ≠ [])
    (hm : GoMap.index mm t.source none = some m) :
    trans.Sprintf F mm (some t) format v =
      match trans.Sprintf.loop m format v t.acceptlang with
      | some s => s
      | none => defaultPolicy F format v := by
  have hmm : ¬ GoMap.len mm = 0 := by
    intro h0
    rw [GoMap.len_zero_iff_nil] at h0
    subst h0
    simp [GoMap.index, GoMap.get] at hm
  have hs0 : ¬ len t.source = 0 := fun hl => hs ((len_eq_zero_iff _).1 hl)
  have ha0 : ¬ t.acceptlang.length = 0 := fun hl => ha (List.length_eq_zero.1 hl)
  simp only [trans.Sprintf, hmm, hs0, ha0, or_self, if_false, hm, sprintf_eq_defaultPolicy]

/-! ## Lemmas on `Register` -/

theorem Register_eq {V : Type} (mm : Registry V) (s d : String) (T : Option (Translator V)) :
    Register mm s d T =
      some (GoMap.set mm s (some (GoMap.set ((GoMap.index mm s none).getD []) d T))) := by
  unfold Register
  cases h : GoMap.index mm s none with
  | none => simp [GoMap.index_set_same, GoMap.set_set_same]
  | some inner => simp

theorem lookup_set_same {V : Type} (mm : Registry V) (s d : String) (m : Dests V) :
    lookup (GoMap.set mm s (some m)) s d = GoMap.index m d none := by
  simp [lookup, GoMap.index_set_same]

/-- Without a tag whose translator gives non-empty output, `Sprintf` is the default policy. -/
theorem Sprintf_of_no_match {V : Type} (F : Fmt V) (mm : Registry V) (tr : Option trans)
    (format : String) (v : List V)
    (h : ∀ t : trans, tr = some t → ∀ tag ∈ t.acceptlang, ∀ T : Translator V,
      lookup mm t.source tag = some T → T.output format v = "") :
    trans.Sprintf F mm tr format v = defaultPolicy F format v := by
  cases tr with
  | none => simp [trans.Sprintf, sprintf_eq_defaultPolicy]
  | some t =>
    unfold trans.Sprintf
    simp only [sprintf_eq_defaultPolicy]
    split
    · rfl
    · cases hm : GoMap.index mm t.source none with
      | none => rfl
      | some m =>
        have hl := loop_no_match m format v t.acceptlang
          (fun tag T hmem hT => h t rfl tag hmem T (by simpa [lookup, hm] using hT))
        simp [hl]

/-! ## The claims on the registry and on formatting -/

/-- C1: resolution rule of `Sprintf`.  For a context with non-empty source, if `i` is the
least index of `acceptlang` whose tag has a registered translator with non-empty output for
the call, `Sprintf` returns the output of that translator. -/
theorem Sprintf_resolution {V : Type} (F : Fmt V) (mm : Registry V) (t : trans)
    (format : String) (v : List V) (i : Nat) (tag : String) (T : Translator V)
    (hs : t.source ≠ "")
    (hi : t.acceptlang[i]? = some tag)
    (hT : lookup mm t.source tag = some T)
    (hne : T.output format v ≠ "")
    (hleast : ∀ (j : Nat) (tag1 : String) (T1 : Translator V), j < i →
      t.acceptlang[j]? = some tag1 → lookup mm t.source tag1 = some T1 →
      T1.output format v = "") :
    trans.Sprintf F mm (some t) format v = T.output format v := by
  have ha : t.acceptlang ≠ [] := by
    intro h0
    rw [h0] at hi
    simp at hi
  cases hm : GoMap.index mm t.source none with
  | none => simp [lookup, hm] at hT
  | some m =>
    have hT1 : GoMap.index m tag none = some T := by simpa [lookup, hm] using hT
    rw [Sprintf_of_entry F mm t format v m hs ha hm]
    have hl := loop_first_match m format v t.acceptlang i tag T hi hT1 hne
      (fun j tag1 T1 hj h1 h2 => hleast j tag1 T1 hj h1 (by simpa [lookup, hm] using h2))
    rw [hl]

/-- C1, the example of the specification: with `zhTranslator` registered for
`("en", "zh-cn")`, the context of source `en` and tags `["zh-cn"]` formats `hi %s` of `x`
as the translation. -/
theorem Sprintf_resolution_witness :
    Register ([] : Registry String) "en" "zh-cn" (some zhTranslator) = some exampleRegistry ∧
    trans.Sprintf stringFmt exampleRegistry (some ⟨"en", ["zh-cn"]⟩) "hi %s" ["x"] = "你好 x" :=
  ⟨rfl,
   (Sprintf_resolution stringFmt exampleRegistry ⟨"en", ["zh-cn"]⟩ "hi %s" ["x"] 0 "zh-cn"
      zhTranslator (by decide) rfl rfl (by decide)
      (fun j _ _ hj => absurd hj (Nat.not_lt_zero j))).trans (by decide)⟩

/-- C2: fallback of `Sprintf`.  If every tag of `acceptlang` has no registered translator
for the source, or one whose output for the call is empty, `Sprintf` returns the output of
the default formatting policy. -/
theorem Sprintf_fallback {V : Type} (F : Fmt V) (mm : Registry V) (tr : Option trans)
    (format : String) (v : List V)
    (h : ∀ t : trans, tr = some t → ∀ tag ∈ t.acceptlang, ∀ T : Translator V,
      lookup mm t.source tag = some T → T.output format v = "") :
    trans.Sprintf F mm tr format v = defaultPolicy F format v :=
  Sprintf_of_no_match F mm tr format v h

/-- C2, the example of the specification: with the same registry and the tags `["fr"]`,
`hi %s` of `x` is formatted by the default policy. -/
theorem Sprintf_fallback_witness :
    (∀ t : trans, some (⟨"en", ["fr"]⟩ : trans) = some t → ∀ tag ∈ t.acceptlang,
      ∀ T : Translator String, lookup exampleRegistry t.source tag = some T →
      T.output "hi %s" ["x"] = "") ∧
    trans.Sprintf stringFmt exampleRegistry (some ⟨"en", ["fr"]⟩) "hi %s" ["x"] = "hi x" :=
  have hyp : ∀ t : trans, some (⟨"en", ["fr"]⟩ : trans) = some t → ∀ tag ∈ t.acceptlang,
      ∀ T : Translator String, lookup exampleRegistry t.source tag = some T →
      T.output "hi %s" ["x"] = "" := by
    intro t ht tag hmem T hT
    cases ht
    simp at hmem
    subst hmem
    simp [lookup, exampleRegistry, GoMap.index, GoMap.get] at hT
  ⟨hyp, (Sprintf_fallback stringFmt exampleRegistry (some ⟨"en", ["fr"]⟩) "hi %s" ["x"]
    hyp).trans (by decide)⟩

/-- C3: negotiation is skipped.  If the registry holds no source, or the source of the
context is empty, or its `acceptlang` is empty, or the registry has no entry set for its
source, `Sprintf` returns the output of the default formatting policy. -/
theorem Sprintf_skips_negotiation {V : Type} (F : Fmt V) (mm : Registry V) (t : trans)
    (format : String) (v : List V)
    (h : mm = [] ∨ t.source = "" ∨ t.acceptlang = [] ∨
      GoMap.index mm t.source none = none) :
    trans.Sprintf F mm (some t) format v = defaultPolicy F format v := by
  unfold trans.Sprintf
  simp only [sprintf_eq_defaultPolicy]
  split
  · rfl
  · rename_i hg
    rw [GoMap.len_zero_iff_nil, len_eq_zero_iff, List.length_eq_zero] at hg
    rcases h with h | h | h | h
    · exact absurd (Or.inl h) hg
    · exact absurd (Or.inr (Or.inl h)) hg
    · exact absurd (Or.inr (Or.inr h)) hg
    · rw [h]

/-- C3, an instance for each of the four conditions: the empty registry, the empty source,
no tags, and a source without entry set, under a registry and tags that would match. -/
theorem Sprintf_skips_negotiation_witness :
    trans.Sprintf stringFmt [] (some ⟨"en", ["zh-cn"]⟩) "hi %s" ["x"] = "hi x" ∧
    trans.Sprintf stringFmt exampleRegistry (some ⟨"", ["zh-cn"]⟩) "hi %s" ["x"] = "hi x" ∧
    trans.Sprintf stringFmt exampleRegistry (some ⟨"en", []⟩) "hi %s" ["x"] = "hi x" ∧
    trans.Sprintf stringFmt exampleRegistry (some ⟨"de", ["zh-cn"]⟩) "" ["x", "y"] = "xy" :=
  ⟨(Sprintf_skips_negotiation stringFmt [] ⟨"en", ["zh-cn"]⟩ "hi %s" ["x"]
      (Or.inl rfl)).trans (by decide),
   (Sprintf_skips_negotiation stringFmt exampleRegistry ⟨"", ["zh-cn"]⟩ "hi %s" ["x"]
      (Or.inr (Or.inl rfl))).trans (by decide),
   (Sprintf_skips_negotiation stringFmt exampleRegistry ⟨"en", []⟩ "hi %s" ["x"]
      (Or.inr (Or.inr (Or.inl rfl)))).trans (by decide),
   (Sprintf_skips_negotiation stringFmt exampleRegistry ⟨"de", ["zh-cn"]⟩ "" ["x", "y"]
      (Or.inr (Or.inr (Or.inr rfl)))).trans (by decide)⟩

/-- C4: register then lookup.  `Register(s, d, T)` always succeeds and leaves the registry
mapping `(s, d)` to `T`; a further `Register(s, d, T2)` succeeds too and leaves it mapping
`(s, d)` to `T2`. -/
theorem Register_then_lookup {V : Type} (mm : Registry V) (s d : String)
    (T T2 : Option (Translator V)) :
    ∃ mm1 mm2 : Registry V,
      Register mm s d T = some mm1 ∧ lookup mm1 s d = T ∧
      Register mm1 s d T2 = some mm2 ∧ lookup mm2 s d = T2 := by
  refine ⟨_, _, Register_eq mm s d T, ?_, Register_eq _ s d T2, ?_⟩
  · rw [lookup_set_same, GoMap.index_set_same]
  · rw [lookup_set_same, GoMap.index_set_same]

/-! ## Lemmas on `sortAcceptLang` -/

theorem splitChars_ne_nil (sep : Char) (cs : List Char) : splitChars sep cs ≠ [] := by
  cases cs with
  | nil => simp [splitChars]
  | cons c cs =>
    unfold splitChars
    by_cases h : c = sep
    · simp [h]
    · simp only [h, if_false]
      split <;> simp

/-- The first entry is the text before the first separator. -/
theorem splitChars_head (sep : Char) (cs : List Char) :
    (splitChars sep cs).head? = some (cs.takeWhile (fun c => c ≠ sep)) := by
  induction cs with
  | nil => simp [splitChars]
  | cons c cs ih =>
    unfold splitChars
    by_cases h : c = sep
    · simp [h]
    · simp only [h, if_false]
      cases hs : splitChars sep cs with
      | nil => exact absurd hs (splitChars_ne_nil sep cs)
      | cons e es =>
        rw [hs] at ih
        simp at ih
        simp [List.takeWhile, h, ih]

/-- No entry contains the separator. -/
theorem splitChars_no_sep (sep : Char) (cs : List Char) :
    ∀ e ∈ splitChars sep cs, sep ∉ e := by
  induction cs with
  | nil => simp [splitChars]
  | cons c cs ih =>
    unfold splitChars
    by_cases h : c = sep
    · simp only [h, if_true]
      intro e he
      rcases List.mem_cons.1 he with he | he
      · simp [he]
      · exact ih e he
    · simp only [h, if_false]
      cases hs : splitChars sep cs with
      | nil => exact absurd hs (splitChars_ne_nil sep cs)
      | cons e0 es =>
        rw [hs] at ih
        intro e he
        rcases List.mem_cons.1 he with he | he
        · subst he
          have h0 := ih e0 (List.mem_cons_self _ _)
          intro hmem
          rcases List.mem_cons.1 hmem with hm | hm
          · exact h hm.symm
          · exact h0 hm
        · exact ih e (List.mem_cons_of_mem _ he)

theorem splitChars_of_no_sep (sep : Char) (e : List Char) (he : sep ∉ e) :
    splitChars sep e = [e] := by
  induction e with
  | nil => simp [splitChars]
  | cons c cs ih =>
    have hc : c ≠ sep := fun hc => he (by simp [hc])
    have hcs : sep ∉ cs := fun hm => he (List.mem_cons_of_mem _ hm)
    unfold splitChars
    simp [hc, ih hcs]

theorem splitChars_append_sep (sep : Char) (e tl : List Char) (he : sep ∉ e) :
    splitChars sep (e ++ sep :: tl) = e :: splitChars sep tl := by
  induction e with
  | nil =>
    simp only [List.nil_append]
    rw [splitChars]
    simp
  | cons c cs ih =>
    have hc : c ≠ sep := fun hc => he (by simp [hc])
    have hcs : sep ∉ cs := fun hm => he (List.mem_cons_of_mem _ hm)
    simp only [List.cons_append]
    rw [splitChars]
    simp [hc, ih hcs]

/-- Splitting the entries joined by the separator gives the entries back. -/
theorem splitChars_intercalate (sep : Char) :
    ∀ (es : List (List Char)), es ≠ [] → (∀ e ∈ es, sep ∉ e) →
      splitChars sep (List.intercalate [sep] es) = es := by
  intro es
  induction es with
  | nil => intro h; exact absurd rfl h
  | cons e rest ih =>
    intro _ hno
    have he : sep ∉ e := hno e (List.mem_cons_self _ _)
    cases rest with
    | nil =>
      simp only [List.intercalate, List.intersperse, List.flatten, List.append_nil]
      exact splitChars_of_no_sep sep e he
    | cons e1 rest1 =>
      have hrec := ih (by simp) (fun x hx => hno x (List.mem_cons_of_mem _ hx))
      have hexp : List.intercalate [sep] (e :: e1 :: rest1) =
          e ++ sep :: List.intercalate [sep] (e1 :: rest1) := by
        simp [List.intercalate, List.intersperse]
      rw [hexp, splitChars_append_sep sep e _ he, hrec]

theorem Split_ne_nil (s : String) (sep : Char) : strings.Split s sep ≠ [] := by
  simp [strings.Split, splitChars_ne_nil]

theorem Split_eq_cons (s : String) (sep : Char) :
    strings.Split s sep = (strings.Split s sep).headD "" :: (strings.Split s sep).tail := by
  cases h : strings.Split s sep with
  | nil => exact absurd h (Split_ne_nil s sep)
  | cons a rest => rfl

/-- The first entry of `strings.Split` is the text before the first separator. -/
theorem Split_headD (s : String) (sep : Char) :
    (strings.Split s sep).headD "" = String.mk (s.data.takeWhile (fun c => c ≠ sep)) := by
  have h := splitChars_head sep s.data
  unfold strings.Split
  cases hs : splitChars sep s.data with
  | nil => exact absurd hs (splitChars_ne_nil sep s.data)
  | cons e es =>
    rw [hs] at h
    simp at h
    simp [h]

/-- Splitting the entries of a split joined by commas again gives the entries back. -/
theorem Split_joinComma (ss : List String) (hne : ss ≠ [])
    (hno : ∀ e ∈ ss, ',' ∉ e.data) : strings.Split (joinComma ss) ',' = ss := by
  unfold strings.Split joinComma
  rw [splitChars_intercalate ',' (ss.map String.data) (by simpa using hne)
    (by simpa using hno)]
  simp [List.map_map, Function.comp_def]

theorem Split_no_comma (s : String) : ∀ e ∈ strings.Split s ',', ',' ∉ e.data := by
  intro e he
  unfold strings.Split at he
  rcases List.mem_map.1 he with ⟨cs, hcs, rfl⟩
  exact splitChars_no_sep ',' s.data cs hcs

/-- The loop appends to the tags collected so far the kept tags of the entries before
the first entry that does not parse. -/
theorem sortAcceptLang_loop_eq (L : Lib) :
    ∀ (es langs : List String),
      sortAcceptLang.loop L es langs =
        langs ++ (es.takeWhile (fun e => (L.ParseMediaType e).isSome)).filterMap (keptTag L) := by
  intro es
  induction es with
  | nil => intro langs; simp [sortAcceptLang.loop]
  | cons e rest ih =>
    intro langs
    rw [sortAcceptLang.loop]
    cases hp : L.ParseMediaType e with
    | none => simp [List.takeWhile, hp]
    | some res =>
      rcases res with ⟨mediatype, params⟩
      by_cases hq : GoMap.index params "q" "" = "0"
      · simp [List.takeWhile, hp, hq, ih, keptTag]
      · simp [List.takeWhile, hp, hq, ih, keptTag]

theorem sortAcceptLang_raw (L : Lib) (r : Request) :
    sortAcceptLang L r =
      some (L.ToLower ((strings.Split (rawPreference r) ',').headD "") ::
        ((strings.Split (rawPreference r) ',').tail.takeWhile
          (fun e => (L.ParseMediaType e).isSome)).filterMap (keptTag L)) := by
  have hal : (if (match r.Cookie NameOfCookieToUseLanguage with
        | some value => value
        | none => "") = "" then r.HeaderGet "Accept-Language"
      else (match r.Cookie NameOfCookieToUseLanguage with
        | some value => value
        | none => "")) = rawPreference r := by
    unfold rawPreference NameOfCookieToUseLanguage
    cases r.Cookie "lang" with
    | none => simp
    | some value => simp
  unfold sortAcceptLang
  simp only [hal]
  rw [Split_eq_cons (rawPreference r) ',']
  simp [sortAcceptLang_loop_eq]

theorem rawPreference_headerRequest (al : String) : rawPreference (headerRequest al) = al := by
  simp [rawPreference, headerRequest, Request.Cookie, Request.HeaderGet, GoMap.get,
    GoMap.index]

theorem takeWhile_eq_take {α : Type} (p : α → Bool) :
    ∀ (l : List α) (n : Nat) (e : α), l[n]? = some e → p e = false →
      (∀ (j : Nat) (x : α), j < n → l[j]? = some x → p x = true) →
      l.takeWhile p = l.take n := by
  intro l
  induction l with
  | nil => intro n e h; simp at h
  | cons a rest ih =>
    intro n e hn hp hall
    cases n with
    | zero =>
      simp at hn
      subst hn
      simp [List.takeWhile, hp]
    | succ k =>
      have ha : p a = true := hall 0 a (by omega) (by simp)
      have hrec := ih k e (by simpa using hn) hp
        (fun j x hj hx => hall (j + 1) x (by omega) (by simpa using hx))
      simp [List.takeWhile, ha, hrec]

/-! ## The claims on the derivation of the preference list -/

/-- C5, as stated, fails: the request without cookie and header derives the sequence
`[""]`, and a translator registered under the empty destination tag matches it, so
`Sprintf` returns the translation and not the output of the default policy. -/
theorem Sprintf_empty_signals_counterexample :
    Register ([] : Registry String) "en" "" (some zhTranslator) = some emptyTagRegistry ∧
    sortAcceptLang asciiLib { cookies := [], Header := [] } = some [""] ∧
    trans.Sprintf stringFmt emptyTagRegistry (some ⟨"en", [""]⟩) "hi %s" ["x"] = "你好 x" ∧
    defaultPolicy stringFmt "hi %s" ["x"] = "hi x" ∧
    trans.Sprintf stringFmt emptyTagRegistry (some ⟨"en", [""]⟩) "hi %s" ["x"] ≠
      defaultPolicy stringFmt "hi %s" ["x"] := by
  refine ⟨rfl, by decide, by decide, by decide, by decide⟩

/-- C5, amended: for a request with empty preference signals the derived sequence is
`[""]` (the lowercasing of the empty string being empty), and `Sprintf` on the context
built from it returns the output of the default policy for every registry that holds no
translator with non-empty output for the call under the pair of the source and the empty
tag. -/
theorem Sprintf_empty_signals {V : Type} (L : Lib) (F : Fmt V) (mm : Registry V)
    (r : Request) (source format : String) (v : List V)
    (hc : r.Cookie "lang" = none ∨ r.Cookie "lang" = some "")
    (hh : r.HeaderGet "Accept-Language" = "")
    (hlow : L.ToLower "" = "")
    (hreg : ∀ T : Translator V, lookup mm source "" = some T → T.output format v = "") :
    sortAcceptLang L r = some [""] ∧
    trans.Sprintf F mm (some ⟨source, [""]⟩) format v = defaultPolicy F format v := by
  have hraw : rawPreference r = "" := by
    unfold rawPreference
    rcases hc with hc | hc <;> simp [hc, hh]
  have hsplit : strings.Split "" ',' = [""] := by decide
  constructor
  · rw [sortAcceptLang_raw, hraw, hsplit]
    simp [hlow]
  · apply Sprintf_of_no_match
    intro t ht tag hmem T hT
    cases ht
    simp at hmem
    subst hmem
    exact hreg T hT

/-- C5, amended, at the request without cookie and header and the registry that knows
only the tag `zh-cn`. -/
theorem Sprintf_empty_signals_witness :
    sortAcceptLang asciiLib { cookies := [], Header := [] } = some [""] ∧
    trans.Sprintf stringFmt exampleRegistry (some ⟨"en", [""]⟩) "hi %s" ["x"] = "hi x" :=
  have h := Sprintf_empty_signals asciiLib stringFmt exampleRegistry
    { cookies := [], Header := [] } "en" "hi %s" ["x"] (Or.inl rfl) rfl rfl
    (by
      intro T hT
      simp [lookup, exampleRegistry, GoMap.index, GoMap.get] at hT)
  ⟨h.1, h.2.trans (by decide)⟩

/-- C6, as stated, fails: for the header `zh;q=0,en` the first element of the derived
sequence is the whole first entry `zh;q=0`, not the tag `zh`. -/
theorem sortAcceptLang_zh_en_counterexample :
    sortAcceptLang asciiLib (headerRequest "zh;q=0,en") = some ["zh;q=0", "en"] ∧
    sortAcceptLang asciiLib (headerRequest "zh;q=0,en") ≠ some ["zh", "en"] := by
  constructor <;> decide

/-- C6, amended: for the request with no cookie and the header `zh;q=0,en` the derived
sequence is `["zh;q=0", "en"]`, for every library that lowercases `zh;q=0` to itself and
parses `en` as the tag `en` with a parameter `q` other than `0` or none. -/
theorem sortAcceptLang_zh_en (L : Lib) (params : GoMap String)
    (hlow : L.ToLower "zh;q=0" = "zh;q=0")
    (hen : L.ParseMediaType "en" = some ("en", params))
    (hq : GoMap.index params "q" "" ≠ "0") :
    sortAcceptLang L (headerRequest "zh;q=0,en") = some ["zh;q=0", "en"] := by
  have hsplit : strings.Split "zh;q=0,en" ',' = ["zh;q=0", "en"] := by decide
  rw [sortAcceptLang_raw, rawPreference_headerRequest, hsplit]
  simp [hlow, List.takeWhile, hen, keptTag, hq]

/-- C6, amended, at the library instance of the examples. -/
theorem sortAcceptLang_zh_en_witness :
    asciiLib.ToLower "zh;q=0" = "zh;q=0" ∧
    asciiLib.ParseMediaType "en" = some ("en", []) ∧
    sortAcceptLang asciiLib (headerRequest "zh;q=0,en") = some ["zh;q=0", "en"] :=
  ⟨by decide, by decide,
   sortAcceptLang_zh_en asciiLib [] (by decide) (by decide) (by decide)⟩

/-- C7: primary tag.  The first element of the derived sequence is the lowercasing of the
whole text of the raw value before its first comma, whatever that text holds. -/
theorem sortAcceptLang_primary_tag (L : Lib) (r : Request) :
    ∃ rest : List String,
      sortAcceptLang L r =
        some (L.ToLower (String.mk ((rawPreference r).data.takeWhile (fun c => c ≠ ','))) ::
          rest) := by
  refine ⟨((strings.Split (rawPreference r) ',').tail.takeWhile
    (fun e => (L.ParseMediaType e).isSome)).filterMap (keptTag L), ?_⟩
  rw [sortAcceptLang_raw, Split_headD]

/-- C8: zero-quality exclusion and order.  When every entry after the first parses, the
derived sequence after its first element is the list, in order of appearance, of the parsed
tags of the entries whose parameter `q` is not the string `0`. -/
theorem sortAcceptLang_zero_quality (L : Lib) (r : Request)
    (hparse : ∀ e ∈ (strings.Split (rawPreference r) ',').tail,
      (L.ParseMediaType e).isSome = true) :
    sortAcceptLang L r =
      some (L.ToLower ((strings.Split (rawPreference r) ',').headD "") ::
        (strings.Split (rawPreference r) ',').tail.filterMap (keptTag L)) := by
  rw [sortAcceptLang_raw]
  have hall : (strings.Split (rawPreference r) ',').tail.takeWhile
      (fun e => (L.ParseMediaType e).isSome) = (strings.Split (rawPreference r) ',').tail := by
    rw [List.takeWhile_eq_self_iff]
    exact hparse
  rw [hall]

/-- C8, the example of the specification, and an entry with `q=0.0`, which is kept. -/
theorem sortAcceptLang_zero_quality_witness :
    (∀ e ∈ (strings.Split (rawPreference (headerRequest "x,en;q=0.1,de;q=0,fr;q=0.9"))
        ',').tail, (asciiLib.ParseMediaType e).isSome = true) ∧
    sortAcceptLang asciiLib (headerRequest "x,en;q=0.1,de;q=0,fr;q=0.9") =
      some ["x", "en", "fr"] ∧
    sortAcceptLang asciiLib (headerRequest "x,it;q=0.0,pt") = some ["x", "it", "pt"] :=
  ⟨by decide,
   (sortAcceptLang_zero_quality asciiLib (headerRequest "x,en;q=0.1,de;q=0,fr;q=0.9")
      (by decide)).trans (by decide),
   by decide⟩

/-- C9: a malformed entry stops the derivation.  If `k ≥ 1` is the index of the first
entry that fails to parse, the derived sequence is the one derived from the entries
`0..k-1` alone (joined by commas as a raw value): the lowercased first entry and the kept
tags of the entries `1..k-1`; no entry from index `k` on contributes. -/
theorem sortAcceptLang_stops_at_malformed (L : Lib) (r : Request) (k : Nat) (e : String)
    (hk : 1 ≤ k)
    (he : (strings.Split (rawPreference r) ',')[k]? = some e)
    (hfail : L.ParseMediaType e = none)
    (hfirst : ∀ (j : Nat) (x : String), 1 ≤ j → j < k →
      (strings.Split (rawPreference r) ',')[j]? = some x → L.ParseMediaType x ≠ none) :
    sortAcceptLang L r =
      sortAcceptLang L (headerRequest (joinComma ((strings.Split (rawPreference r) ',').take k))) ∧
    sortAcceptLang L r =
      some (L.ToLower ((strings.Split (rawPreference r) ',').headD "") ::
        ((strings.Split (rawPreference r) ',').take k).tail.filterMap (keptTag L)) := by
  have hno := Split_no_comma (rawPreference r)
  obtain ⟨hd, tl, hss⟩ : ∃ hd tl, strings.Split (rawPreference r) ',' = hd :: tl :=
    ⟨_, _, Split_eq_cons (rawPreference r) ','⟩
  obtain ⟨n, rfl⟩ : ∃ n, k = n + 1 := ⟨k - 1, by omega⟩
  rw [hss] at he hfirst hno
  have hen : tl[n]? = some e := by simpa using he
  have htw : tl.takeWhile (fun x => (L.ParseMediaType x).isSome) = tl.take n := by
    apply takeWhile_eq_take _ tl n e hen (by simp [hfail])
    intro j x hj hx
    have h1 := hfirst (j + 1) x (by omega) (by omega) (by simpa using hx)
    cases hp : L.ParseMediaType x with
    | none => exact absurd hp h1
    | some res => rfl
  have hmain : sortAcceptLang L r =
      some (L.ToLower hd :: (tl.take n).filterMap (keptTag L)) := by
    rw [sortAcceptLang_raw, hss]
    simp [htw]
  have htake : (hd :: tl).take (n + 1) = hd :: tl.take n := rfl
  constructor
  · rw [hmain, sortAcceptLang_raw, rawPreference_headerRequest, hss, htake,
      Split_joinComma (hd :: tl.take n) (by simp)
        (fun x hx => hno x (by
          rcases List.mem_cons.1 hx with h | h
          · simp [h]
          · exact List.mem_cons_of_mem _ (List.mem_of_mem_take h)))]
    simp only [List.headD_cons, List.tail_cons]
    rw [← htw, List.takeWhile_idem]
  · rw [hmain, hss, htake]
    simp

/-- C9, at a raw value whose entry of index 2 is malformed and followed by a well-formed
entry. -/
theorem sortAcceptLang_stops_at_malformed_witness :
    (strings.Split (rawPreference (headerRequest "x,en;q=0.1,??,fr")) ',')[2]? = some "??" ∧
    asciiLib.ParseMediaType "??" = none ∧
    joinComma ((strings.Split (rawPreference (headerRequest "x,en;q=0.1,??,fr")) ',').take 2)
      = "x,en;q=0.1" ∧
    sortAcceptLang asciiLib (headerRequest "x,en;q=0.1,??,fr") =
      sortAcceptLang asciiLib (headerRequest "x,en;q=0.1") ∧
    sortAcceptLang asciiLib (headerRequest "x,en;q=0.1,??,fr") = some ["x", "en"] :=
  have h := sortAcceptLang_stops_at_malformed asciiLib (headerRequest "x,en;q=0.1,??,fr") 2
    "??" (by decide) (by decide) (by decide)
    (by
      intro j x h1 h2 hx
      have hj : j = 1 := by omega
      subst hj
      have hx1 : x = "en;q=0.1" := by
        have h0 : (strings.Split (rawPreference (headerRequest "x,en;q=0.1,??,fr")) ',')[1]?
            = some "en;q=0.1" := by decide
        rw [h0] at hx
        exact (Option.some.inj hx).symm
      subst hx1
      decide)
  ⟨by decide, by decide, by decide, h.1.trans (by decide), h.2.trans (by decide)⟩

/-- C10: cookie precedence.  Two requests whose cookie `lang` has the same non-empty value
derive the same sequence, whatever their headers; a request whose cookie `lang` is absent
or empty derives the sequence of its header `Accept-Language`. -/
theorem sortAcceptLang_cookie_precedence (L : Lib) (r1 r2 : Request) (c : String) :
    (r1.Cookie "lang" = some c → r2.Cookie "lang" = some c → c ≠ "" →
      sortAcceptLang L r1 = sortAcceptLang L r2) ∧
    ((r1.Cookie "lang" = none ∨ r1.Cookie "lang" = some "") →
      sortAcceptLang L r1 =
        sortAcceptLang L (headerRequest (r1.HeaderGet "Accept-Language"))) := by
  constructor
  · intro h1 h2 hc
    have e1 : rawPreference r1 = c := by simp [rawPreference, h1, hc]
    have e2 : rawPreference r2 = c := by simp [rawPreference, h2, hc]
    rw [sortAcceptLang_raw, sortAcceptLang_raw, e1, e2]
  · intro h
    have e1 : rawPreference r1 = r1.HeaderGet "Accept-Language" := by
      unfold rawPreference
      rcases h with h | h <;> simp [h]
    rw [sortAcceptLang_raw, sortAcceptLang_raw, rawPreference_headerRequest, e1]

/-- C10, at two requests with the cookie `lang=zh-cn` and different headers, and at a
request whose cookie `lang` is empty. -/
theorem sortAcceptLang_cookie_precedence_witness :
    sortAcceptLang asciiLib
        { cookies := [("lang", "zh-cn")], Header := [("Accept-Language", ["en"])] } =
      sortAcceptLang asciiLib
        { cookies := [("lang", "zh-cn")], Header := [("Accept-Language", ["fr,de"])] } ∧
    sortAcceptLang asciiLib
        { cookies := [("lang", "zh-cn")], Header := [("Accept-Language", ["en"])] } =
      some ["zh-cn"] ∧
    sortAcceptLang asciiLib
        { cookies := [("lang", "")], Header := [("Accept-Language", ["fr,de"])] } =
      some ["fr", "de"] :=
  ⟨(sortAcceptLang_cookie_precedence asciiLib
      { cookies := [("lang", "zh-cn")], Header := [("Accept-Language", ["en"])] }
      { cookies := [("lang", "zh-cn")], Header := [("Accept-Language", ["fr,de"])] }
      "zh-cn").1 rfl rfl (by decide),
   by decide,
   ((sortAcceptLang_cookie_precedence asciiLib
      { cookies := [("lang", "")], Header := [("Accept-Language", ["fr,de"])] }
      { cookies := [], Header := [] } "").2 (Or.inr rfl)).trans (by decide)⟩

/-! ## Lemmas on the steps of `Sprintf` -/

theorem loopSteps_fst {V : Type} (m : Dests V) (format : String) (v : List V) :
    ∀ tags : List String,
      (trans.Sprintf.loopSteps m format v tags).1 = trans.Sprintf.loop m format v tags := by
  intro tags
  induction tags with
  | nil => rfl
  | cons ac rest ih =>
    rw [trans.Sprintf.loopSteps, trans.Sprintf.loop]
    cases GoMap.index m ac none with
    | none => simpa using ih
    | some t =>
      simp only
      generalize (if len format = 0 then t.Sprint v else t.Sprintf format v) = s
      by_cases hs : len s = 0
      · simp [hs, ih]
      · simp [hs]

/-- The step-by-step method returns what `Sprintf` returns. -/
theorem steps_fst {V : Type} (F : Fmt V) (mm : Registry V) (tr : Option trans)
    (format : String) (v : List V) :
    (trans.Sprintf.steps F mm tr format v).map Prod.fst =
      some (trans.Sprintf F mm tr format v) := by
  unfold trans.Sprintf.steps trans.Sprintf
  cases tr with
  | none => simp
  | some t =>
    by_cases h0 : GoMap.len mm = 0
    · have hA : GoMap.len mm = 0 ∨ (some t : Option trans).isNone = true := Or.inl h0
      have hB : GoMap.len mm = 0 ∨ len t.source = 0 ∨ t.acceptlang.length = 0 := Or.inl h0
      rw [if_pos hA]
      dsimp only
      rw [if_pos hB]
      rfl
    · have hA : ¬ (GoMap.len mm = 0 ∨ (some t : Option trans).isNone = true) := by simp [h0]
      rw [if_neg hA]
      dsimp only
      by_cases h1 : len t.source = 0 ∨ t.acceptlang.length = 0
      · rw [if_pos h1, if_pos (Or.inr h1)]
        rfl
      · have hB : ¬ (GoMap.len mm = 0 ∨ len t.source = 0 ∨ t.acceptlang.length = 0) := by
          intro h
          rcases h with h | h
          · exact h0 h
          · exact h1 h
        rw [if_neg h1, if_neg hB]
        cases GoMap.index mm t.source none with
        | none => rfl
        | some m =>
          dsimp only
          rw [loopSteps_fst]
          cases trans.Sprintf.loop m format v t.acceptlang with
          | none => rfl
          | some r => rfl

theorem lockAtCalls_append (es fs : List Event) :
    ∀ held : Bool,
      lockAtCalls held (es ++ fs) = lockAtCalls held es ++ lockAtCalls (lockAfter held es) fs := by
  induction es with
  | nil => intro held; simp [lockAtCalls, lockAfter]
  | cons e rest ih =>
    intro held
    cases e <;> simp [lockAtCalls, lockAfter, ih]

theorem lockAfter_append (es fs : List Event) :
    ∀ held : Bool, lockAfter held (es ++ fs) = lockAfter (lockAfter held es) fs := by
  induction es with
  | nil => intro held; simp [lockAfter]
  | cons e rest ih =>
    intro held
    cases e <;> simp [lockAfter, ih]

/-- The loop leaves the lock as it is, and its calls happen in that state of the lock. -/
theorem loopSteps_lock {V : Type} (m : Dests V) (format : String) (v : List V) (held : Bool) :
    ∀ tags : List String,
      lockAfter held (trans.Sprintf.loopSteps m format v tags).2 = held ∧
      ∀ b ∈ lockAtCalls held (trans.Sprintf.loopSteps m format v tags).2, b = held := by
  intro tags
  induction tags with
  | nil => simp [trans.Sprintf.loopSteps, lockAfter, lockAtCalls]
  | cons ac rest ih =>
    rw [trans.Sprintf.loopSteps]
    cases GoMap.index m ac none with
    | none => simpa [lockAfter, lockAtCalls] using ih
    | some t =>
      simp only
      generalize (if len format = 0 then t.Sprint v else t.Sprintf format v) = s
      by_cases hs : len s = 0
      · simpa [hs, lockAfter, lockAtCalls] using ih
      · simp [hs, lockAfter, lockAtCalls]

/-- `Sprintf` on a context reads the registry through the entry set of its source only. -/
theorem Sprintf_eq_of_index {V : Type} (F : Fmt V) (mm : Registry V) (t : trans)
    (format : String) (v : List V) :
    trans.Sprintf F mm (some t) format v =
      if t.source = "" ∨ t.acceptlang = [] then defaultPolicy F format v
      else
        match GoMap.index mm t.source none with
        | none => defaultPolicy F format v
        | some m =>
          match trans.Sprintf.loop m format v t.acceptlang with
          | some s => s
          | none => defaultPolicy F format v := by
  by_cases h : t.source = "" ∨ t.acceptlang = []
  · rw [if_pos h]
    unfold trans.Sprintf
    simp only [sprintf_eq_defaultPolicy]
    have hg : GoMap.len mm = 0 ∨ len t.source = 0 ∨ t.acceptlang.length = 0 := by
      rcases h with h | h
      · exact Or.inr (Or.inl ((len_eq_zero_iff _).2 h))
      · exact Or.inr (Or.inr (List.length_eq_zero.2 h))
    rw [if_pos hg]
  · rw [if_neg h]
    have hs : t.source ≠ "" := fun hs => h (Or.inl hs)
    have ha : t.acceptlang ≠ [] := fun ha => h (Or.inr ha)
    cases hm : GoMap.index mm t.source none with
    | some m => rw [Sprintf_of_entry F mm t format v m hs ha hm]
    | none =>
      unfold trans.Sprintf
      simp only [sprintf_eq_defaultPolicy, hm]
      split <;> rfl

theorem lookup_set_other {V : Type} (mm : Registry V) (s s2 d2 : String)
    (m : Option (Dests V)) (h : s2 ≠ s) :
    lookup (GoMap.set mm s m) s2 d2 = lookup mm s2 d2 := by
  simp [lookup, GoMap.index_set_other mm s s2 m none h]

/-! ## The claims on the context, the lock and the frame of `Register` -/

/-- C11: source reassignment.  `Source(s2)` on a context sets its source to `s2` and keeps
its `acceptlang`; `Source` on a nil context leaves it nil; the next `Sprintf` is the one of
the context of source `s2`, whatever the source was before, and it depends on the registry
through the entry set of `s2` only. -/
theorem Source_reassignment {V : Type} (F : Fmt V) (mm mm1 : Registry V) (t : trans)
    (s2 format : String) (v : List V) :
    trans.Source (some t) s2 = some ⟨s2, t.acceptlang⟩ ∧
    trans.Source none s2 = none ∧
    trans.Sprintf F mm (trans.Source (some t) s2) format v =
      trans.Sprintf F mm (some ⟨s2, t.acceptlang⟩) format v ∧
    (GoMap.index mm1 s2 none = GoMap.index mm s2 none →
      trans.Sprintf F mm1 (trans.Source (some t) s2) format v =
        trans.Sprintf F mm (trans.Source (some t) s2) format v) := by
  refine ⟨rfl, rfl, rfl, ?_⟩
  intro h
  show trans.Sprintf F mm1 (some ⟨s2, t.acceptlang⟩) format v =
    trans.Sprintf F mm (some ⟨s2, t.acceptlang⟩) format v
  rw [Sprintf_eq_of_index, Sprintf_eq_of_index]
  simp only [h]

/-- C11, at a context of source `de` moved to the source `en`: the next `Sprintf` finds the
translator registered for `en`, which the context of source `de` does not. -/
theorem Source_reassignment_witness :
    trans.Source (some ⟨"de", ["zh-cn"]⟩) "en" = some ⟨"en", ["zh-cn"]⟩ ∧
    trans.Sprintf stringFmt exampleRegistry (trans.Source (some ⟨"de", ["zh-cn"]⟩) "en")
      "hi %s" ["x"] = "你好 x" ∧
    trans.Sprintf stringFmt exampleRegistry (some ⟨"de", ["zh-cn"]⟩) "hi %s" ["x"] = "hi x" ∧
    trans.Sprintf stringFmt (("de", some []) :: exampleRegistry)
      (trans.Source (some ⟨"de", ["zh-cn"]⟩) "en") "hi %s" ["x"] = "你好 x" :=
  have h := Source_reassignment stringFmt exampleRegistry (("de", some []) :: exampleRegistry)
    ⟨"de", ["zh-cn"]⟩ "en" "hi %s" ["x"]
  ⟨h.1, h.2.2.1.trans (by decide), by decide, (h.2.2.2 rfl).trans (by decide)⟩

/-- C12, as stated, fails: in the call of the example the translator is called between
`RLock` and the deferred `RUnlock`, that is, while the read lock is held. -/
theorem Sprintf_lock_scope_counterexample :
    trans.Sprintf.steps stringFmt exampleRegistry (some ⟨"en", ["zh-cn"]⟩) "hi %s" ["x"] =
      some ("你好 x",
        [Event.lenRead, Event.RLock, Event.sourceRead "en", Event.destRead "zh-cn",
          Event.call "zh-cn", Event.RUnlock]) ∧
    lockAtCalls false
      [Event.lenRead, Event.RLock, Event.sourceRead "en", Event.destRead "zh-cn",
        Event.call "zh-cn", Event.RUnlock] = [true] := by
  constructor <;> decide

/-- The steps of the loop are reads of the inner map and calls of translators. -/
theorem loopSteps_events {V : Type} (m : Dests V) (format : String) (v : List V) :
    ∀ tags : List String, ∀ e ∈ (trans.Sprintf.loopSteps m format v tags).2,
      (∃ tag, e = Event.destRead tag) ∨ (∃ tag, e = Event.call tag) := by
  intro tags
  induction tags with
  | nil => simp [trans.Sprintf.loopSteps]
  | cons ac rest ih =>
    rw [trans.Sprintf.loopSteps]
    cases GoMap.index m ac none with
    | none =>
      intro e he
      rcases List.mem_cons.1 he with he | he
      · exact Or.inl ⟨ac, he⟩
      · exact ih e he
    | some t =>
      simp only
      generalize (if len format = 0 then t.Sprint v else t.Sprintf format v) = s
      by_cases hs : len s = 0
      · simp only [hs, ne_eq, not_true_eq_false, if_false]
        intro e he
        rcases List.mem_cons.1 he with he | he
        · exact Or.inl ⟨ac, he⟩
        · rcases List.mem_cons.1 he with he | he
          · exact Or.inr ⟨ac, he⟩
          · exact ih e he
      · simp only [hs, ne_eq, not_false_eq_true, if_true]
        intro e he
        rcases List.mem_cons.1 he with he | he
        · exact Or.inl ⟨ac, he⟩
        · rcases List.mem_cons.1 he with he | he
          · exact Or.inr ⟨ac, he⟩
          · simp at he

/-- Reads of the inner map and calls of translators leave the lock as it is, and the
calls among them happen in that state of the lock. -/
theorem lock_of_reads_calls (held : Bool) :
    ∀ mid : List Event,
      (∀ e ∈ mid, (∃ tag, e = Event.destRead tag) ∨ (∃ tag, e = Event.call tag)) →
      lockAfter held mid = held ∧ ∀ b ∈ lockAtCalls held mid, b = held := by
  intro mid
  induction mid with
  | nil => intro _; simp [lockAfter, lockAtCalls]
  | cons e rest ih =>
    intro h
    have hrest := ih (fun x hx => h x (List.mem_cons_of_mem _ hx))
    rcases h e (List.mem_cons_self _ _) with ⟨tag, rfl⟩ | ⟨tag, rfl⟩
    · simpa [lockAfter, lockAtCalls] using hrest
    · simpa [lockAfter, lockAtCalls] using hrest

/-- C12, amended: a run of `Sprintf` either stops at the guard of line 87 after the read
`len(mm)`, without a lock operation and without a call of a translator, or has the steps
`len(mm)`, `RLock`, the read `mm[tr.source]`, then reads of the inner map and calls of
translators only, then the deferred `RUnlock` as its last step.  So the read lock is taken
before the map read, every call of a translator happens while it is held, and it is
released by the last step only; after the run it is not held. -/
theorem Sprintf_calls_under_lock {V : Type} (F : Fmt V) (mm : Registry V)
    (tr : Option trans) (format : String) (v : List V) (s : String) (es : List Event)
    (h : trans.Sprintf.steps F mm tr format v = some (s, es)) :
    (es = [Event.lenRead] ∨
      ∃ (t : trans) (mid : List Event), tr = some t ∧
        es = [Event.lenRead, Event.RLock, Event.sourceRead t.source] ++ mid ++
          [Event.RUnlock] ∧
        ∀ e ∈ mid, (∃ tag, e = Event.destRead tag) ∨ (∃ tag, e = Event.call tag)) ∧
    (∀ b ∈ lockAtCalls false es, b = true) ∧ lockAfter false es = false := by
  have hform : es = [Event.lenRead] ∨
      ∃ (t : trans) (mid : List Event), tr = some t ∧
        es = [Event.lenRead, Event.RLock, Event.sourceRead t.source] ++ mid ++
          [Event.RUnlock] ∧
        ∀ e ∈ mid, (∃ tag, e = Event.destRead tag) ∨ (∃ tag, e = Event.call tag) := by
    unfold trans.Sprintf.steps at h
    split at h
    · cases h
      exact Or.inl rfl
    · cases tr with
      | none => simp at h
      | some t =>
        dsimp only at h
        split at h
        · cases h
          exact Or.inl rfl
        · split at h
          · cases h
            exact Or.inr ⟨t, [], rfl, rfl, by simp⟩
          · split at h
            · cases h
              exact Or.inr ⟨t, _, rfl, rfl, loopSteps_events _ format v t.acceptlang⟩
            · cases h
              exact Or.inr ⟨t, _, rfl, rfl, loopSteps_events _ format v t.acceptlang⟩
  refine ⟨hform, ?_⟩
  rcases hform with h1 | ⟨t, mid, _, h1, hmid⟩
  · subst h1
    simp [lockAtCalls, lockAfter]
  · subst h1
    have hl := lock_of_reads_calls true mid hmid
    constructor
    · intro b hb
      rw [lockAtCalls_append, lockAtCalls_append] at hb
      simp only [lockAtCalls, lockAfter, List.nil_append, List.append_nil] at hb
      exact hl.2 b hb
    · rw [lockAfter_append]
      simp [lockAfter]

/-- C12, amended, at the call of the example. -/
theorem Sprintf_calls_under_lock_witness :
    trans.Sprintf.steps stringFmt exampleRegistry (some ⟨"en", ["fr", "zh-cn"]⟩) "hi %s" ["x"] =
      some ("你好 x",
        [Event.lenRead, Event.RLock, Event.sourceRead "en", Event.destRead "fr",
          Event.destRead "zh-cn", Event.call "zh-cn", Event.RUnlock]) ∧
    (([Event.lenRead, Event.RLock, Event.sourceRead "en", Event.destRead "fr",
          Event.destRead "zh-cn", Event.call "zh-cn", Event.RUnlock] = [Event.lenRead] ∨
      ∃ (t : trans) (mid : List Event), some (⟨"en", ["fr", "zh-cn"]⟩ : trans) = some t ∧
        [Event.lenRead, Event.RLock, Event.sourceRead "en", Event.destRead "fr",
          Event.destRead "zh-cn", Event.call "zh-cn", Event.RUnlock] =
          [Event.lenRead, Event.RLock, Event.sourceRead t.source] ++ mid ++
            [Event.RUnlock] ∧
        ∀ e ∈ mid, (∃ tag, e = Event.destRead tag) ∨ (∃ tag, e = Event.call tag)) ∧
      (∀ b ∈ lockAtCalls false
        [Event.lenRead, Event.RLock, Event.sourceRead "en", Event.destRead "fr",
          Event.destRead "zh-cn", Event.call "zh-cn", Event.RUnlock], b = true) ∧
      lockAfter false
        [Event.lenRead, Event.RLock, Event.sourceRead "en", Event.destRead "fr",
          Event.destRead "zh-cn", Event.call "zh-cn", Event.RUnlock] = false) :=
  ⟨by decide,
   Sprintf_calls_under_lock stringFmt exampleRegistry (some ⟨"en", ["fr", "zh-cn"]⟩) "hi %s"
     ["x"] "你好 x" _ (by decide)⟩

/-- C15: `Register` changes one pair only.  For every pair `(s2, d2)` other than `(s, d)`,
`Register(s, d, T)` succeeds and leaves the lookup of `(s2, d2)` as it was. -/
theorem Register_frame {V : Type} (mm : Registry V) (s d s2 d2 : String)
    (T : Option (Translator V)) (h : s2 ≠ s ∨ d2 ≠ d) :
    ∃ mm1 : Registry V, Register mm s d T = some mm1 ∧ lookup mm1 s2 d2 = lookup mm s2 d2 := by
  refine ⟨_, Register_eq mm s d T, ?_⟩
  by_cases hs : s2 = s
  · subst hs
    have hd : d2 ≠ d := by
      rcases h with h | h
      · exact absurd rfl h
      · exact h
    rw [lookup_set_same, GoMap.index_set_other _ d d2 T none hd]
    unfold lookup
    cases GoMap.index mm s2 none with
    | none => simp [GoMap.index, GoMap.get]
    | some m => simp
  · exact lookup_set_other mm s s2 d2 _ hs

/-- C15, at the registry of the examples: a second destination for the source `en` and a
first destination for a new source both keep the translator of `("en", "zh-cn")`. -/
theorem Register_frame_witness :
    (∃ mm1 : Registry String,
      Register exampleRegistry "en" "fr" none = some mm1 ∧
      lookup mm1 "en" "zh-cn" = lookup exampleRegistry "en" "zh-cn") ∧
    (∃ mm1 : Registry String,
      Register exampleRegistry "de" "zh-cn" none = some mm1 ∧
      lookup mm1 "en" "zh-cn" = lookup exampleRegistry "en" "zh-cn") :=
  ⟨Register_frame exampleRegistry "en" "fr" "en" "zh-cn" none (Or.inr (by decide)),
   Register_frame exampleRegistry "de" "zh-cn" "en" "zh-cn" none (Or.inl (by decide))⟩

/-- C17: nil-context safety.  On a nil context `Sprintf` returns the output of the default
formatting policy, for every registry, without a read through the nil pointer, and `Sprint`
returns the output of `fmt.Sprint`. -/
theorem Sprintf_nil_context {V : Type} (F : Fmt V) (mm : Registry V) (format : String)
    (v : List V) :
    trans.Sprintf.steps F mm none format v =
      some (defaultPolicy F format v, [Event.lenRead]) ∧
    trans.Sprintf F mm none format v = defaultPolicy F format v ∧
    trans.Sprint F mm none v = defaultPolicy F "" v ∧
    trans.Sprint F mm none v = F.Sprint v := by
  refine ⟨?_, ?_, ?_, ?_⟩
  · simp [trans.Sprintf.steps, sprintf_eq_defaultPolicy]
  · simp [trans.Sprintf, sprintf_eq_defaultPolicy]
  · simp [trans.Sprint, trans.Sprintf, sprintf_eq_defaultPolicy]
  · simp [trans.Sprint, trans.Sprintf, sprintf_eq_defaultPolicy, defaultPolicy]

/-! ## Lowercasing -/

theorem toLower_idem (c : Char) : c.toLower.toLower = c.toLower := by
  unfold Char.toLower
  simp only
  by_cases h : c.toNat ≥ 65 ∧ c.toNat ≤ 90
  · rw [if_pos h]
    obtain ⟨h1, h2⟩ := h
    have hn : ∀ n, 65 ≤ n → n ≤ 90 →
        (if (Char.ofNat (n + 32)).toNat ≥ 65 ∧ (Char.ofNat (n + 32)).toNat ≤ 90
          then Char.ofNat ((Char.ofNat (n + 32)).toNat + 32) else Char.ofNat (n + 32)) =
          Char.ofNat (n + 32) := by
      intro n hn1 hn2
      interval_cases n <;> decide
    exact hn _ h1 h2
  · rw [if_neg h, if_neg h]

theorem asciiToLower_idem (s : String) : asciiToLower (asciiToLower s) = asciiToLower s := by
  simp [asciiToLower, List.map_map, Function.comp_def, toLower_idem]

theorem map_eq_self {α : Type} (f : α → α) :
    ∀ l : List α, (∀ x ∈ l, f x = x) → l.map f = l := by
  intro l
  induction l with
  | nil => intro _; rfl
  | cons a rest ih =>
    intro h
    rw [List.map_cons, h a (List.mem_cons_self _ _),
      ih (fun x hx => h x (List.mem_cons_of_mem _ hx))]

theorem trimSpace_subset (cs : List Char) : ∀ c ∈ trimSpace cs, c ∈ cs := by
  intro c hc
  unfold trimSpace at hc
  rw [List.mem_reverse] at hc
  have h1 := (List.dropWhile_sublist isSpace).subset hc
  rw [List.mem_reverse] at h1
  exact (List.dropWhile_sublist isSpace).subset h1

/-- The tag that the parser of the examples returns is in lower case. -/
theorem parseMediaType_lower (e mt : String) (ps : GoMap String)
    (h : parseMediaType e = some (mt, ps)) : asciiToLower mt = mt := by
  unfold parseMediaType at h
  simp only at h
  split at h
  · split at h
    · cases h
      unfold asciiToLower
      congr 1
      apply map_eq_self
      intro c hc
      have hc1 := trimSpace_subset _ c hc
      rcases List.mem_map.1 hc1 with ⟨c0, _, rfl⟩
      exact toLower_idem c0
    · cases h
  · cases h

/-- C14: every derived tag is in lower case.  When `strings.ToLower` leaves its own results
unchanged and the parser returns tags in lower case, each element of the derived sequence
equals its own lowercasing, so a destination key that is not in lower case is no element
of the sequence. -/
theorem sortAcceptLang_lowercase (L : Lib) (r : Request)
    (hidem : ∀ s : String, L.ToLower (L.ToLower s) = L.ToLower s)
    (hparse : ∀ (e mt : String) (ps : GoMap String),
      L.ParseMediaType e = some (mt, ps) → L.ToLower mt = mt) :
    ∃ langs : List String,
      sortAcceptLang L r = some langs ∧
      (∀ x ∈ langs, L.ToLower x = x) ∧
      (∀ d : String, L.ToLower d ≠ d → d ∉ langs) := by
  have hall : ∀ x ∈ L.ToLower ((strings.Split (rawPreference r) ',').headD "") ::
      ((strings.Split (rawPreference r) ',').tail.takeWhile
        (fun e => (L.ParseMediaType e).isSome)).filterMap (keptTag L), L.ToLower x = x := by
    intro x hx
    rcases List.mem_cons.1 hx with hx | hx
    · rw [hx, hidem]
    · rcases List.mem_filterMap.1 hx with ⟨e, _, hk⟩
      unfold keptTag at hk
      cases hp : L.ParseMediaType e with
      | none => simp [hp] at hk
      | some res =>
        rcases res with ⟨mt, ps⟩
        simp only [hp] at hk
        split at hk
        · cases hk
        · cases hk
          exact hparse e x ps hp
  exact ⟨_, sortAcceptLang_raw L r, hall, fun d hd hmem => hd (hall d hmem)⟩

/-- C14, at the library instance of the examples and a header in upper case. -/
theorem sortAcceptLang_lowercase_witness :
    sortAcceptLang asciiLib (headerRequest "ZH-CN,EN;q=0.8") = some ["zh-cn", "en"] ∧
    ∃ langs : List String,
      sortAcceptLang asciiLib (headerRequest "ZH-CN,EN;q=0.8") = some langs ∧
      (∀ x ∈ langs, asciiLib.ToLower x = x) ∧
      (∀ d : String, asciiLib.ToLower d ≠ d → d ∉ langs) :=
  ⟨by decide,
   sortAcceptLang_lowercase asciiLib (headerRequest "ZH-CN,EN;q=0.8") asciiToLower_idem
     parseMediaType_lower⟩

/-! ## The claims on `Translate` and on the length of the derived sequence -/

/-- The derived sequence exists, and it has between one element and as many elements as
the raw value has entries. -/
theorem sortAcceptLang_length (L : Lib) (r : Request) :
    ∃ langs : List String,
      sortAcceptLang L r = some langs ∧ 1 ≤ langs.length ∧
      langs.length ≤ (strings.Split (rawPreference r) ',').length := by
  refine ⟨_, sortAcceptLang_raw L r, by simp, ?_⟩
  have h1 := List.length_filterMap_le (keptTag L)
    ((strings.Split (rawPreference r) ',').tail.takeWhile
      (fun e => (L.ParseMediaType e).isSome))
  have h2 := (List.takeWhile_sublist (fun e => (L.ParseMediaType e).isSome)
    (l := (strings.Split (rawPreference r) ',').tail)).length_le
  have h3 : (strings.Split (rawPreference r) ',').length =
      (strings.Split (rawPreference r) ',').tail.length + 1 := by
    conv_lhs => rw [Split_eq_cons (rawPreference r) ',']
    simp
  simp only [List.length_cons]
  omega

/-- C16: `sortAcceptLang` always returns a non-empty sequence.  The index `ss[0]` is in
range, the result has at least one element and at most as many as the raw value has
entries; and in every run of the handler of `Translate` that reaches line 67, on every
store, the context that it maps has a non-empty `acceptlang`, so that the operand
`len(tr.acceptlang) == 0` of line 87 is false for it. -/
theorem sortAcceptLang_nonempty {σ : Type} (L : Lib) (I : Injector σ) (source : String)
    (r : Request) (c : σ) (heap : List trans) :
    (∃ langs : List String,
      sortAcceptLang L r = some langs ∧ 1 ≤ langs.length ∧
      langs.length ≤ (strings.Split (rawPreference r) ',').length) ∧
    (∀ (p : Nat) (heap1 : List trans), Translate.tr L I source r c heap = some (p, heap1) →
      ∃ t : trans, heap1[p]? = some t ∧ t.acceptlang.length ≠ 0) := by
  obtain ⟨langs, hl, h1, h2⟩ := sortAcceptLang_length L r
  have hne : langs.length ≠ 0 := by omega
  refine ⟨⟨langs, hl, h1, h2⟩, ?_⟩
  intro p heap1 h
  unfold Translate.tr at h
  cases hg : I.Get c typeTranslator with
  | none => simp [hg] at h
  | some rv =>
    cases rv with
    | none =>
      simp only [hg, hl] at h
      cases h
      exact ⟨{ source := source, acceptlang := langs }, by simp, hne⟩
    | some d =>
      cases d with
      | other name => simp [hg] at h
      | transPtr q =>
        cases q with
        | none =>
          simp only [hg, hl] at h
          cases h
          exact ⟨{ source := source, acceptlang := langs }, by simp, hne⟩
        | some q =>
          simp only [hg] at h
          cases hq : heap[q]? with
          | none => simp [hq] at h
          | some t =>
            simp only [hq] at h
            by_cases ht : t.acceptlang.length = 0
            · simp only [ht, if_true, hl] at h
              cases h
              have hlt : p < heap.length := by
                rcases List.getElem?_eq_some_iff.1 hq with ⟨hlt, _⟩
                exact hlt
              exact ⟨{ source := source, acceptlang := langs }, by simp [hlt], hne⟩
            · simp only [ht, if_false] at h
              cases h
              exact ⟨t, hq, ht⟩

/-- C16, at the request without cookie and header, on the store of package `inject` in
which a context with an empty `acceptlang` is filed under the type that line 56 asks for:
the run gives the context the sequence `[""]`, of one element. -/
theorem sortAcceptLang_nonempty_witness :
    sortAcceptLang asciiLib { cookies := [], Header := [] } = some [""] ∧
    Translate.tr asciiLib typeStore "en" { cookies := [], Header := [] }
        [(typeTranslator, some (Dyn.transPtr (some 0)))] [{ source := "", acceptlang := [] }] =
      some (0, [{ source := "en", acceptlang := [""] }]) ∧
    ∃ t : trans, [({ source := "en", acceptlang := [""] } : trans)][0]? = some t ∧
      t.acceptlang.length ≠ 0 :=
  have h := sortAcceptLang_nonempty asciiLib typeStore "en" { cookies := [], Header := [] }
    [(typeTranslator, some (Dyn.transPtr (some 0)))] [{ source := "", acceptlang := [] }]
  ⟨by decide, by decide, h.2 0 _ (by decide)⟩

/-- A run of the handler fails when `c.Get` of line 56 does not return. -/
theorem Translate_of_get_fails {σ : Type} (L : Lib) (I : Injector σ) (source : String)
    (r : Request) (c : σ) (heap : List trans) (hg : I.Get c typeTranslator = none) :
    Translate L I source r c heap = none := by
  simp only [Translate, Translate.tr, hg]

/-- On the store of package `inject`, `Get` fails at the nil type `typeTranslator` unless a
valid value is filed under the nil type, and `Map` of a non-nil interface value files
nothing there. -/
theorem typeStore_get_fails :
    typeStore.Get [] typeTranslator = none ∧
    ∀ (c : List (ReflectType × Iface)) (d : Dyn),
      typeStore.Get c typeTranslator = none →
      typeStore.Get (typeStore.Map c (some d)) typeTranslator = none := by
  refine ⟨rfl, ?_⟩
  intro c d h
  cases d with
  | transPtr q =>
    simpa [typeStore, typeTranslator, reflect.TypeOf, List.lookup] using h
  | other name =>
    simpa [typeStore, typeTranslator, reflect.TypeOf, List.lookup] using h

/-- A run of the handler on a store in which `c.Get` returns and finds nothing builds a
new context. -/
theorem Translate_of_not_found {σ : Type} (L : Lib) (I : Injector σ) (source : String)
    (r : Request) (c : σ) (heap : List trans) (langs : List String)
    (hl : sortAcceptLang L r = some langs) (hg : I.Get c typeTranslator = some none) :
    Translate L I source r c heap =
      some (I.Map c (some (Dyn.transPtr (some heap.length))),
        heap ++ [{ source := source, acceptlang := langs }]) := by
  simp only [Translate, Translate.tr, hg, hl]

/-- A run of the handler that finds a context leaves it as it is when its `acceptlang` is
not empty, and sets both its `acceptlang` and its source when it is. -/
theorem Translate_of_found {σ : Type} (L : Lib) (I : Injector σ) (source : String)
    (r : Request) (c : σ) (heap : List trans) (langs : List String) (p : Nat) (t : trans)
    (hl : sortAcceptLang L r = some langs)
    (hg : I.Get c typeTranslator = some (some (Dyn.transPtr (some p))))
    (hp : heap[p]? = some t) :
    Translate L I source r c heap =
      some (I.Map c (some (Dyn.transPtr (some p))),
        if t.acceptlang = [] then heap.set p { source := source, acceptlang := langs }
        else heap) := by
  by_cases ht : t.acceptlang = []
  · simp [Translate, Translate.tr, hg, hl, hp, ht]
  · have hlen : ¬ t.acceptlang.length = 0 := fun h => ht (List.length_eq_zero.1 h)
    simp [Translate, Translate.tr, hg, hp, ht, hlen]

/-- On a store that gives back under `typeTranslator` the context mapped last, a second
handler keeps the context of the first. -/
theorem Translate_twice_of_found {σ : Type} (L : Lib) (I : Injector σ) (s1 s2 : String)
    (r : Request) (c : σ) (heap : List trans)
    (h0 : I.Get c typeTranslator = some none)
    (hget : ∀ (c1 : σ) (d : Dyn), I.Get (I.Map c1 (some d)) typeTranslator = some (some d)) :
    ∃ langs : List String, sortAcceptLang L r = some langs ∧
      (Translate L I s1 r c heap).bind (fun w => Translate L I s2 r w.1 w.2) =
        some (I.Map (I.Map c (some (Dyn.transPtr (some heap.length))))
            (some (Dyn.transPtr (some heap.length))),
          heap ++ [{ source := s1, acceptlang := langs }]) := by
  obtain ⟨langs, hl, h1, _⟩ := sortAcceptLang_length L r
  refine ⟨langs, hl, ?_⟩
  rw [Translate_of_not_found L I s1 r c heap langs hl h0]
  simp only [Option.some_bind]
  rw [Translate_of_found L I s2 r _ _ langs heap.length { source := s1, acceptlang := langs }
    hl (hget _ _) (by simp)]
  have hne : langs ≠ [] := by
    intro h
    rw [h] at h1
    simp at h1
  simp [hne]

/-- On the store with one place the second handler keeps the context of the first. -/
theorem Translate_twice_slotStore :
    (Translate asciiLib slotStore "en" (headerRequest "zh-cn") none []).bind
        (fun w => Translate asciiLib slotStore "fr" (headerRequest "zh-cn") w.1 w.2) =
      some (some (Dyn.transPtr (some 0)), [{ source := "en", acceptlang := ["zh-cn"] }]) := by
  decide

/-- C13, the run that breaks it: `typeTranslator` is the nil type, `c.Get` on the store of
package `inject` does not return for it when the store is fresh, so the handler of
`Translate("en")` fails on line 56 and maps no context; the handler of `Translate("fr")`
is not reached with a context of source `en`. -/
theorem Translate_fresh_store_fails :
    typeTranslator = none ∧
    typeStore.Get [] typeTranslator = none ∧
    Translate asciiLib typeStore "en" (headerRequest "zh-cn") [] [] = none ∧
    (Translate asciiLib typeStore "en" (headerRequest "zh-cn") [] []).bind
        (fun w => Translate asciiLib typeStore "fr" (headerRequest "zh-cn") w.1 w.2) = none ∧
    Translate asciiLib typeStore "fr" (headerRequest "zh-cn") [] [] = none := by
  refine ⟨rfl, rfl, by decide, by decide, by decide⟩

end I18n
